import Mathlib

/-!
Verification of the Supervised Random Walk recommender
(`ghanalyzer/algorithms/recommenders/supervisedrw.py`).

The numeric core (sparse-matrix construction, row normalization, the
fixed-point solvers) is embedded over an arbitrary linearly ordered field
`α`; theorems instantiate it at `ℚ` (for concrete evaluation) or at `ℝ`
(for the sigmoid-based parts).  Matrices are total functions
`Fin N → Fin N → α`; building a scipy `coo_matrix` from parallel arrays
is summation over duplicate coordinates.  Float division by zero is the
one place the embedding departs from IEEE semantics (Lean fields have
`x / 0 = 0`); every concrete statement below avoids that region or is
insensitive to it.
-/

namespace SRW

variable {α : Type} [LinearOrderedField α]

/-- `scipy.sparse.coo_matrix((A, (row, col)), shape=(N, N))` viewed densely:
entry `(i, j)` is the sum of `A e` over all edges `e` scattered to `(i, j)`. -/
def scatter_coo {N E : ℕ} (row col : Fin E → Fin N) (A : Fin E → α) :
    Fin N → Fin N → α :=
  fun i j => ∑ e : Fin E, if row e = i ∧ col e = j then A e else 0

/-- `F.sum(axis=1)` at row `i`. -/
def row_sum {N : ℕ} (F : Fin N → Fin N → α) (i : Fin N) : α := ∑ j, F i j

/-- The L1 norm of row `i` (sum of absolute values), as used by
`sklearn.preprocessing.normalize(..., norm='l1')`. -/
def row_abs_sum {N : ℕ} (F : Fin N → Fin N → α) (i : Fin N) : α := ∑ j, |F i j|

/-- `sklearn.preprocessing.normalize(F, norm='l1')` on a sparse matrix: each
row is divided by its L1 norm; rows of norm zero are left unchanged. -/
def l1_row_normalize {N : ℕ} (F : Fin N → Fin N → α) : Fin N → Fin N → α :=
  fun i j => if row_abs_sum F i = 0 then F i j else F i j / row_abs_sum F i

/-- `_get_transition_probability` (supervisedrw.py lines 65-74): scatter the
edge strengths, L1-normalize rows, scale by `1 - alpha`, then add `alpha`
to the `root` column of every row. -/
def get_transition_probability {N E : ℕ} (row col : Fin E → Fin N)
    (A : Fin E → α) (root : Fin N) (alpha : α) : Fin N → Fin N → α :=
  fun i j =>
    l1_row_normalize (scatter_coo row col A) i j * (1 - alpha) +
      (if j = root then alpha else 0)

/-- `_get_transition_probability_derivative` (lines 76-95).  Entry-wise:
`dQ[m][i,j] = 1/(Σrow dF_m)[i]² · ((Σrow F)[i]·dF_m[i,j] − (Σrow dF_m)[i]·F[i,j]) · (1−alpha)`.
Note the code's `denominator` is built from `norm = dFm.sum(axis=1)`, the row
sums of the *derivative* matrix, not of `F`. -/
def get_transition_probability_derivative {N E M : ℕ} (row col : Fin E → Fin N)
    (A : Fin E → α) (dA : Fin E → Fin M → α) (alpha : α) :
    Fin M → Fin N → Fin N → α :=
  fun m i j =>
    let F := scatter_coo row col A
    let dFm := scatter_coo row col fun e => dA e m
    1 / row_sum dFm i ^ 2 * (row_sum F i * dFm i j - row_sum dFm i * F i j) *
      (1 - alpha)

/-- Modelled from the spec (section 4.2, derivative contract): the quotient
rule on the per-row normalization,
`d(F/Σrow F) = (Σrow F · dF − dΣrow F · F) / (Σrow F)²`, scaled by
`1 − alpha`, with all-zero rows of `F` yielding a zero derivative row.
This is the comparison definition for the derivative-builder claim; the
code's actual computation is `get_transition_probability_derivative`. -/
def transition_derivative_spec {N E M : ℕ} (row col : Fin E → Fin N)
    (A : Fin E → α) (dA : Fin E → Fin M → α) (alpha : α) :
    Fin M → Fin N → Fin N → α :=
  fun m i j =>
    let F := scatter_coo row col A
    let dFm := scatter_coo row col fun e => dA e m
    if row_sum F i = 0 then 0
    else (row_sum F i * dFm i j - row_sum dFm i * F i j) / row_sum F i ^ 2 *
      (1 - alpha)

/-- One step of the primal fixed-point iteration (lines 107-108):
`P1 = Q.T.dot(P)` followed by `P1 /= P1.sum()`. -/
def power_step {N : ℕ} (Q : Fin N → Fin N → α) (P : Fin N → α) : Fin N → α :=
  fun j => (∑ i, Q i j * P i) / ∑ k, ∑ i, Q i k * P i

/-- `_converged` (lines 97-100): `np.max(np.abs(X2 - X1)) < epsilon`.
For a nonempty index type this is equivalent to the componentwise bound
used here. -/
def converged_test {N : ℕ} (eps : α) (X1 X2 : Fin N → α) : Prop :=
  ∀ i, |X2 i - X1 i| < eps

instance {N : ℕ} (eps : α) (X1 X2 : Fin N → α) :
    Decidable (converged_test eps X1 X2) :=
  inferInstanceAs (Decidable (∀ i, |X2 i - X1 i| < eps))

/-- The shared shape of both fixed-point loops (lines 106-112 and 123-131):
up to `k` more iterations starting from `P`; each round computes the next
iterate, breaks **before** storing it when the convergence test passes, and
otherwise stores it and continues.  The boolean records whether the test
ever passed (the code prints its non-convergence diagnostic exactly when
this is `false`); either way the current iterate is returned — the loop
never throws. -/
def fp_loop {N : ℕ} (step : (Fin N → α) → Fin N → α) (eps : α) :
    ℕ → (Fin N → α) → (Fin N → α) × Bool
  | 0, P => (P, false)
  | k + 1, P =>
    let P1 := step P
    if converged_test eps P P1 then (P, true) else fp_loop step eps k P1

/-- `P.fill(1.0 / self.N)` (lines 103-104). -/
def uniform_dist (N : ℕ) : Fin N → α := fun _ => 1 / (N : α)

/-- `_get_stationary_distribution` (lines 102-116) together with its
convergence flag. -/
def stationary_triple {N : ℕ} (Q : Fin N → Fin N → α) (max_steps : ℕ)
    (eps : α) : (Fin N → α) × Bool :=
  fp_loop (power_step Q) eps max_steps (uniform_dist N)

/-- The vector actually returned by `_get_stationary_distribution`. -/
def get_stationary_distribution {N : ℕ} (Q : Fin N → Fin N → α)
    (max_steps : ℕ) (eps : α) : Fin N → α :=
  (stationary_triple Q max_steps eps).1

/-- One step of the derivative fixed-point iteration (lines 124-127):
`(diag(dP[:,m])·Q + diag(P)·dQ[m]).sum(axis=0)`, i.e. column `j` of the
next iterate is `Σ_i (dP[i,m]·Q[i,j] + P[i]·dQ[m][i,j])`. -/
def derivative_step {N : ℕ} (P : Fin N → α) (Q dQm : Fin N → Fin N → α)
    (dPm : Fin N → α) : Fin N → α :=
  fun j => ∑ i, (dPm i * Q i j + P i * dQm i j)

/-- `_get_stationary_distribution_derivative` (lines 118-135): a matrix of
zeros is swept feature by feature; for each `m` the inner loop (an
`fp_loop` over `derivative_step`) starts from the current column `m` and
its final iterate is stored back into column `m`. -/
def get_stationary_distribution_derivative {N M : ℕ} (P : Fin N → α)
    (Q : Fin N → Fin N → α) (dQ : Fin M → Fin N → Fin N → α)
    (max_steps : ℕ) (eps : α) : Fin N → Fin M → α :=
  (List.finRange M).foldl
    (fun dP m => fun i m2 =>
      if m2 = m then
        (fp_loop (derivative_step P Q (dQ m)) eps max_steps
          fun i2 => dP i2 m).1 i
      else dP i m2)
    fun _ _ => 0

/-! ### Shared lemmas about the loop shape -/

/-- The loop always returns some iterate of its step function, reached in at
most `k` applications. -/
theorem fp_loop_is_iterate {N : ℕ} (step : (Fin N → α) → Fin N → α) (eps : α) :
    ∀ (k : ℕ) (P : Fin N → α), ∃ j ≤ k,
      (fp_loop step eps k P).1 = step^[j] P := by
  intro k
  induction k with
  | zero => exact fun P => ⟨0, le_rfl, rfl⟩
  | succ k ih =>
    intro P
    by_cases h : converged_test eps P (step P)
    · exact ⟨0, Nat.zero_le _, by simp [fp_loop, h]⟩
    · obtain ⟨j, hj, hEq⟩ := ih (step P)
      exact ⟨j + 1, Nat.succ_le_succ hj, by
        simpa [fp_loop, h, Function.iterate_succ_apply] using hEq⟩

/-- If the convergence test never fired, the loop ran all `k` updates and
returned the `k`-th iterate. -/
theorem fp_loop_of_not_converged {N : ℕ} (step : (Fin N → α) → Fin N → α)
    (eps : α) : ∀ (k : ℕ) (P : Fin N → α),
      (fp_loop step eps k P).2 = false →
      (fp_loop step eps k P).1 = step^[k] P := by
  intro k
  induction k with
  | zero => intro P _; rfl
  | succ k ih =>
    intro P hflag
    by_cases h : converged_test eps P (step P)
    · simp [fp_loop, h] at hflag
    · have := ih (step P) (by simpa [fp_loop, h] using hflag)
      simpa [fp_loop, h, Function.iterate_succ_apply] using this

/-- If the convergence test first passes when comparing the `j`-th iterate
with the `j+1`-st (with `j < k`), the loop breaks there and returns the
`j`-th iterate — the one from *before* the final update. -/
theorem fp_loop_first_convergence {N : ℕ} (step : (Fin N → α) → Fin N → α)
    (eps : α) : ∀ (k j : ℕ) (P : Fin N → α), j < k →
      (∀ i < j, ¬ converged_test eps (step^[i] P) (step^[i + 1] P)) →
      converged_test eps (step^[j] P) (step^[j + 1] P) →
      (fp_loop step eps k P).1 = step^[j] P := by
  intro k
  induction k with
  | zero => intro j P hj _ _; exact absurd hj (Nat.not_lt_zero j)
  | succ k ih =>
    intro j P hj hbefore hconv
    cases j with
    | zero =>
      have h0 : converged_test eps P (step P) := by simpa using hconv
      simp [fp_loop, h0]
    | succ j =>
      have h0 : ¬ converged_test eps P (step P) := by
        simpa using hbefore 0 (Nat.succ_pos j)
      have hrec := ih j (step P) (Nat.lt_of_succ_lt_succ hj)
        (fun i hi => by
          simpa [Function.iterate_succ_apply] using
            hbefore (i + 1) (Nat.succ_lt_succ hi))
        (by simpa [Function.iterate_succ_apply] using hconv)
      simpa [fp_loop, h0, Function.iterate_succ_apply] using hrec

/-- The loop preserves any invariant that its step function preserves. -/
theorem fp_loop_preserves {N : ℕ} (step : (Fin N → α) → Fin N → α) (eps : α)
    (Inv : (Fin N → α) → Prop) (hstep : ∀ P, Inv P → Inv (step P)) :
    ∀ (k : ℕ) (P : Fin N → α), Inv P → Inv (fp_loop step eps k P).1 := by
  intro k
  induction k with
  | zero => intro P hP; exact hP
  | succ k ih =>
    intro P hP
    by_cases h : converged_test eps P (step P)
    · simpa [fp_loop, h] using hP
    · simpa [fp_loop, h] using ih (step P) (hstep P hP)

/-- Columns not touched by the sweep keep their value. -/
theorem deriv_sweep_untouched {N M : ℕ} (P : Fin N → α)
    (Q : Fin N → Fin N → α) (dQ : Fin M → Fin N → Fin N → α)
    (max_steps : ℕ) (eps : α) :
    ∀ (L : List (Fin M)) (acc : Fin N → Fin M → α) (m : Fin M), m ∉ L →
      ∀ i, (L.foldl
        (fun dP m2 => fun i2 m3 =>
          if m3 = m2 then
            (fp_loop (derivative_step P Q (dQ m2)) eps max_steps
              fun i3 => dP i3 m2).1 i2
          else dP i2 m3) acc) i m = acc i m := by
  intro L
  induction L with
  | nil => intro acc m _ i; rfl
  | cons m0 rest ih =>
    intro acc m hm i
    have hne : m ≠ m0 := fun h => hm (h ▸ List.mem_cons_self m0 rest)
    have hrest : m ∉ rest := fun h => hm (List.mem_cons_of_mem m0 h)
    rw [List.foldl_cons, ih _ m hrest i]
    simp [hne]

/-- Each column of `_get_stationary_distribution_derivative` is computed by
an independent fixed-point loop over its own feature's `dQ[m]`, started at
the zero column. -/
theorem deriv_sweep_column {N M : ℕ} (P : Fin N → α) (Q : Fin N → Fin N → α)
    (dQ : Fin M → Fin N → Fin N → α) (max_steps : ℕ) (eps : α) (m : Fin M)
    (i : Fin N) :
    get_stationary_distribution_derivative P Q dQ max_steps eps i m =
      (fp_loop (derivative_step P Q (dQ m)) eps max_steps fun _ => 0).1 i := by
  unfold get_stationary_distribution_derivative
  have main : ∀ (L : List (Fin M)) (acc : Fin N → Fin M → α), L.Nodup →
      m ∈ L → (L.foldl
        (fun dP m2 => fun i2 m3 =>
          if m3 = m2 then
            (fp_loop (derivative_step P Q (dQ m2)) eps max_steps
              fun i3 => dP i3 m2).1 i2
          else dP i2 m3) acc) i m =
        (fp_loop (derivative_step P Q (dQ m)) eps max_steps
          fun i3 => acc i3 m).1 i := by
    intro L
    induction L with
    | nil => intro acc _ hm; exact absurd hm (List.not_mem_nil m)
    | cons m0 rest ih =>
      intro acc hnd hm
      rcases List.mem_cons.mp hm with heq | hmem
      · subst heq
        have hout : m ∉ rest := (List.nodup_cons.mp hnd).1
        rw [List.foldl_cons]
        rw [deriv_sweep_untouched P Q dQ max_steps eps rest _ m hout i]
        simp
      · have hne : m ≠ m0 := fun h => (List.nodup_cons.mp hnd).1 (h ▸ hmem)
        rw [List.foldl_cons]
        rw [ih _ (List.nodup_cons.mp hnd).2 hmem]
        simp [hne]
  exact main (List.finRange M) _ (List.nodup_finRange M) (List.mem_finRange m)

/-! ### Row sums of the transition matrix -/

theorem scatter_coo_nonneg {N E : ℕ} (row col : Fin E → Fin N) (A : Fin E → α)
    (hA : ∀ e, 0 ≤ A e) (i j : Fin N) : 0 ≤ scatter_coo row col A i j := by
  refine Finset.sum_nonneg fun e _ => ?_
  by_cases h : row e = i ∧ col e = j <;> simp [h, hA e]

/-- For nonnegative strengths, each transition row sums to `1`, or to
`alpha` when its raw out-strength mass is zero. -/
theorem transition_row_sums {N E : ℕ} (row col : Fin E → Fin N) (A : Fin E → α)
    (root : Fin N) (alpha : α) (hA : ∀ e, 0 ≤ A e) (i : Fin N) :
    ∑ j, get_transition_probability row col A root alpha i j =
      if row_sum (scatter_coo row col A) i = 0 then alpha else 1 := by
  have hFnn : ∀ j, 0 ≤ scatter_coo row col A i j :=
    fun j => scatter_coo_nonneg row col A hA i j
  have habs : row_abs_sum (scatter_coo row col A) i =
      row_sum (scatter_coo row col A) i :=
    Finset.sum_congr rfl fun j _ => abs_of_nonneg (hFnn j)
  unfold get_transition_probability
  rw [Finset.sum_add_distrib, Finset.sum_ite_eq' Finset.univ root fun _ => alpha]
  rw [← Finset.sum_mul]
  by_cases h : row_sum (scatter_coo row col A) i = 0
  · have hzero : ∀ j, scatter_coo row col A i j = 0 := by
      have hall := (Finset.sum_eq_zero_iff_of_nonneg fun j _ => hFnn j).mp h
      exact fun j => hall j (Finset.mem_univ j)
    have hnorm : ∀ j, l1_row_normalize (scatter_coo row col A) i j = 0 := by
      intro j
      unfold l1_row_normalize
      rw [habs, h, hzero j]
      simp
    simp [h, hnorm]
  · have hnorm : ∀ j, l1_row_normalize (scatter_coo row col A) i j =
        scatter_coo row col A i j / row_sum (scatter_coo row col A) i := by
      intro j
      unfold l1_row_normalize
      rw [habs]
      simp [h]
    rw [Finset.sum_congr rfl fun j _ => hnorm j, ← Finset.sum_div]
    rw [show (∑ j, scatter_coo row col A i j) = row_sum (scatter_coo row col A) i from rfl]
    rw [div_self h]
    simp [h]

/-- C2: for nonnegative strengths, every row of the transition matrix sums
to `1`, except rows with zero raw out-strength mass, which sum to `alpha`
exactly. -/
theorem claim2_row_sums {N E : ℕ} (row col : Fin E → Fin N) (A : Fin E → α)
    (root : Fin N) (alpha : α) (hA : ∀ e, 0 ≤ A e) (i : Fin N) :
    ∑ j, get_transition_probability row col A root alpha i j =
      if row_sum (scatter_coo row col A) i = 0 then alpha else 1 :=
  transition_row_sums row col A root alpha hA i

/-- Witness for the row-sum theorem at a concrete graph: one edge `0 → 1`
of strength `1`, `alpha = 1/3`; row 0 sums to `1`, row 1 to `1/3`. -/
theorem claim2_witness :
    (∀ e : Fin 1, 0 ≤ (![1] : Fin 1 → ℚ) e) ∧
    (∀ i, ∑ j, get_transition_probability (![0] : Fin 1 → Fin 2) ![1]
        (![1] : Fin 1 → ℚ) 0 (1/3) i j =
      if row_sum (scatter_coo (![0] : Fin 1 → Fin 2) ![1]
        (![1] : Fin 1 → ℚ)) i = 0 then 1/3 else 1) :=
  ⟨by decide, fun i =>
    claim2_row_sums (![0] : Fin 1 → Fin 2) ![1] ![1] 0 (1/3) (by decide) i⟩

/-- C1 (code bug): with strengths `A = (1, 2)` on edges `(0→1), (0→2)`,
derivative column `dA = (1, 0)` and `alpha = 1/2`, the builder returns
`dQ[0][0,1] = 1` whereas the quotient rule of the spec gives `1/9`:
the code divides by the squared row sums of `dF_m` (`norm = dFm.sum(axis=1)`)
where the quotient rule requires the squared row sums of `F`. -/
theorem claim1_code_bug :
    get_transition_probability_derivative (![0, 0] : Fin 2 → Fin 3)
        ![1, 2] (![1, 2] : Fin 2 → ℚ) ![![1], ![0]] (1/2) 0 0 1 = 1 ∧
    transition_derivative_spec (![0, 0] : Fin 2 → Fin 3)
        ![1, 2] (![1, 2] : Fin 2 → ℚ) ![![1], ![0]] (1/2) 0 0 1 = 1/9 ∧
    (1 : ℚ) ≠ 1/9 := by
  refine ⟨?_, ?_, by norm_num⟩
  · simp [get_transition_probability_derivative, row_sum, scatter_coo,
      Fin.sum_univ_two, Fin.sum_univ_three]
    norm_num
  · simp [transition_derivative_spec, row_sum, scatter_coo,
      Fin.sum_univ_two, Fin.sum_univ_three]
    norm_num

/-! ### The stationary distribution sums to one -/

/-- One `power_step` preserves nonnegativity and total mass one, provided
`Q` is entrywise nonnegative with positive row sums. -/
theorem power_step_preserves {N : ℕ} (Q : Fin N → Fin N → α)
    (hQ : ∀ i j, 0 ≤ Q i j) (hrow : ∀ i, 0 < ∑ j, Q i j) (P : Fin N → α)
    (hP : (∀ i, 0 ≤ P i) ∧ ∑ i, P i = 1) :
    (∀ i, 0 ≤ power_step Q P i) ∧ ∑ i, power_step Q P i = 1 := by
  obtain ⟨hPnn, hPsum⟩ := hP
  have hTnn : ∀ j, 0 ≤ ∑ i, Q i j * P i :=
    fun j => Finset.sum_nonneg fun i _ => mul_nonneg (hQ i j) (hPnn i)
  have hswap : (∑ k, ∑ i, Q i k * P i) = ∑ i, (∑ k, Q i k) * P i := by
    rw [Finset.sum_comm]
    exact Finset.sum_congr rfl fun i _ => (Finset.sum_mul _ _ _).symm
  have hex : ∃ i, 0 < P i := by
    by_contra hc
    push_neg at hc
    have : (∑ i, P i) ≤ 0 := Finset.sum_nonpos fun i _ => hc i
    rw [hPsum] at this
    exact absurd this (by norm_num)
  obtain ⟨i0, hi0⟩ := hex
  have hSpos : 0 < ∑ k, ∑ i, Q i k * P i := by
    rw [hswap]
    refine Finset.sum_pos' (fun i _ => mul_nonneg (hrow i).le (hPnn i)) ?_
    exact ⟨i0, Finset.mem_univ i0, mul_pos (hrow i0) hi0⟩
  constructor
  · intro j
    exact div_nonneg (hTnn j) hSpos.le
  · unfold power_step
    rw [← Finset.sum_div, div_self hSpos.ne']

/-- Every iterate kept by the primal solver is a probability vector. -/
theorem stationary_invariant {N : ℕ} (Q : Fin N → Fin N → α)
    (max_steps : ℕ) (eps : α) (hN : 0 < N) (hQ : ∀ i j, 0 ≤ Q i j)
    (hrow : ∀ i, 0 < ∑ j, Q i j) :
    (∀ i, 0 ≤ get_stationary_distribution Q max_steps eps i) ∧
      ∑ i, get_stationary_distribution Q max_steps eps i = 1 := by
  have hNcast : ((N : α)) ≠ 0 := Nat.cast_ne_zero.mpr hN.ne'
  have base : (∀ i, 0 ≤ uniform_dist (α := α) N i) ∧
      ∑ i, uniform_dist (α := α) N i = 1 := by
    constructor
    · intro i
      unfold uniform_dist
      positivity
    · unfold uniform_dist
      rw [Finset.sum_const, Finset.card_univ, Fintype.card_fin, nsmul_eq_mul]
      field_simp
  exact fp_loop_preserves (power_step Q) eps
    (fun P => (∀ i, 0 ≤ P i) ∧ ∑ i, P i = 1)
    (fun P hP => power_step_preserves Q hQ hrow P hP) max_steps
    (uniform_dist N) base

/-- C5 counterexample: the all-zero 1×1 matrix has nonnegative entries, yet
the returned vector sums to `0`, which is not within `epsilon = 1/2` of `1`
(in floating point the iterate is NaN; either way the claim's row fails). -/
theorem claim5_counterexample :
    ¬ |(∑ j, get_stationary_distribution
        (fun _ _ => (0 : ℚ) : Fin 1 → Fin 1 → ℚ) 1 (1/2) j) - 1| < 1/2 := by
  have hcond : ¬ converged_test (1/2 : ℚ) (uniform_dist 1)
      (power_step (fun _ _ => (0 : ℚ) : Fin 1 → Fin 1 → ℚ) (uniform_dist 1)) := by
    intro h
    have h0 := h 0
    simp [power_step, uniform_dist, Fin.sum_univ_one] at h0
    norm_num at h0
  unfold get_stationary_distribution stationary_triple
  rw [show (1 : ℕ) = 0 + 1 from rfl, fp_loop]
  simp only [hcond, if_false]
  rw [fp_loop]
  simp [power_step, uniform_dist, Fin.sum_univ_one]
  norm_num

/-- C5 amended: if additionally every row of `Q` has positive sum (true of
every matrix the transition builder produces when `alpha > 0`), the
returned vector sums to exactly `1`, converged or not. -/
theorem claim5_amended {N : ℕ} (Q : Fin N → Fin N → α) (max_steps : ℕ)
    (eps : α) (hN : 0 < N) (hQ : ∀ i j, 0 ≤ Q i j)
    (hrow : ∀ i, 0 < ∑ j, Q i j) :
    ∑ j, get_stationary_distribution Q max_steps eps j = 1 :=
  (stationary_invariant Q max_steps eps hN hQ hrow).2

theorem claim5_witness :
    0 < 1 ∧ (∀ i j : Fin 1, 0 ≤ (![![1]] : Fin 1 → Fin 1 → ℚ) i j) ∧
    (∀ i : Fin 1, 0 < ∑ j, (![![1]] : Fin 1 → Fin 1 → ℚ) i j) ∧
    ∑ j, get_stationary_distribution (![![1]] : Fin 1 → Fin 1 → ℚ) 2 1 j = 1 :=
  ⟨Nat.one_pos, by simp [Fin.forall_fin_one],
    by simp [Fin.forall_fin_one, Fin.sum_univ_one],
    claim5_amended ![![1]] 2 1 Nat.one_pos (by simp [Fin.forall_fin_one])
      (by simp [Fin.forall_fin_one, Fin.sum_univ_one])⟩

/-- C6: both fixed-point loops are total and structural.  The primal solver
returns some iterate of `P ↦ normalize(Qᵀ·P)` reached from the uniform start
in at most `max_steps` applications; when its flag reports non-convergence
(the case in which the code prints its diagnostic and continues) the result
is exactly the `max_steps`-th iterate, i.e. the last one computed.  Each
derivative column is produced by its own independent loop over
`derivative_step` with that feature's `dQ[m]`, started at the zero column,
with the same two properties — so one feature's non-convergence cannot
abort or affect the others.  No case raises: every branch returns a value. -/
theorem claim6_solver_structure {N M : ℕ} (Q : Fin N → Fin N → α)
    (P : Fin N → α) (dQ : Fin M → Fin N → Fin N → α) (max_steps : ℕ)
    (eps : α) (m : Fin M) :
    (∃ j ≤ max_steps, get_stationary_distribution Q max_steps eps =
      (power_step Q)^[j] (uniform_dist N)) ∧
    ((stationary_triple Q max_steps eps).2 = false →
      get_stationary_distribution Q max_steps eps =
        (power_step Q)^[max_steps] (uniform_dist N)) ∧
    (∀ i, get_stationary_distribution_derivative P Q dQ max_steps eps i m =
      (fp_loop (derivative_step P Q (dQ m)) eps max_steps fun _ => 0).1 i) ∧
    (∃ j ≤ max_steps,
      (fp_loop (derivative_step P Q (dQ m)) eps max_steps fun _ => 0).1 =
        (derivative_step P Q (dQ m))^[j] fun _ => 0) ∧
    ((fp_loop (derivative_step P Q (dQ m)) eps max_steps fun _ => 0).2 = false →
      (fp_loop (derivative_step P Q (dQ m)) eps max_steps fun _ => 0).1 =
        (derivative_step P Q (dQ m))^[max_steps] fun _ => 0) :=
  ⟨fp_loop_is_iterate _ _ max_steps _,
    fp_loop_of_not_converged _ _ max_steps _,
    fun i => deriv_sweep_column P Q dQ max_steps eps m i,
    fp_loop_is_iterate _ _ max_steps _,
    fp_loop_of_not_converged _ _ max_steps _⟩

/-- Witness for the solver-structure theorem at `max_steps = 0`: the loop
performs no update, reports non-convergence, and returns the start. -/
theorem claim6_witness :
    (stationary_triple (![![1]] : Fin 1 → Fin 1 → ℚ) 0 1).2 = false ∧
    get_stationary_distribution (![![1]] : Fin 1 → Fin 1 → ℚ) 0 1 =
      (power_step ![![1]])^[0] (uniform_dist 1) := by
  have h := claim6_solver_structure (![![1]] : Fin 1 → Fin 1 → ℚ)
    (uniform_dist 1) (fun _ : Fin 1 => ![![0]]) 0 1 0
  exact ⟨rfl, h.2.1 rfl⟩

/-- C10: when the convergence test first passes at step `j` (comparing the
`j`-th iterate with the freshly computed `j+1`-st), both loops break before
storing the new iterate and return the `j`-th one.  In particular `j = 0`
means the start vector — uniform for the primal, zero for a derivative
column — is returned untouched. -/
theorem claim10_break_before_store {N : ℕ} (Q D : Fin N → Fin N → α)
    (P : Fin N → α) (max_steps : ℕ) (eps : α) (j jd : ℕ)
    (hj : j < max_steps)
    (hbefore : ∀ i < j, ¬ converged_test eps
      ((power_step Q)^[i] (uniform_dist N))
      ((power_step Q)^[i + 1] (uniform_dist N)))
    (hconv : converged_test eps ((power_step Q)^[j] (uniform_dist N))
      ((power_step Q)^[j + 1] (uniform_dist N)))
    (hjd : jd < max_steps)
    (hdbefore : ∀ i < jd, ¬ converged_test eps
      ((derivative_step P Q D)^[i] fun _ => 0)
      ((derivative_step P Q D)^[i + 1] fun _ => 0))
    (hdconv : converged_test eps ((derivative_step P Q D)^[jd] fun _ => 0)
      ((derivative_step P Q D)^[jd + 1] fun _ => 0)) :
    get_stationary_distribution Q max_steps eps =
      (power_step Q)^[j] (uniform_dist N) ∧
    ∀ i, get_stationary_distribution_derivative P Q (fun _ : Fin 1 => D)
        max_steps eps i 0 = ((derivative_step P Q D)^[jd] fun _ => 0) i := by
  constructor
  · exact fp_loop_first_convergence _ _ max_steps j _ hj hbefore hconv
  · intro i
    rw [deriv_sweep_column]
    rw [fp_loop_first_convergence _ _ max_steps jd _ hjd hdbefore hdconv]

/-- Witness for the break-before-store theorem: `Q = [[2,1],[1,1]]` with
`epsilon = 1/5` converges at the very first test (the new iterate
`(3/5, 2/5)` is within `1/10` of uniform), so the solver returns the
uniform vector itself, not the product iterate. -/
theorem claim10_witness :
    get_stationary_distribution (![![2, 1], ![1, 1]] : Fin 2 → Fin 2 → ℚ)
        5 (1/5) = uniform_dist 2 ∧
    ∀ i, get_stationary_distribution_derivative (uniform_dist 2)
        (![![2, 1], ![1, 1]] : Fin 2 → Fin 2 → ℚ)
        (fun _ : Fin 1 => fun _ _ => (0 : ℚ)) 5 (1/5) i 0 = 0 := by
  have hconv : converged_test (1/5 : ℚ)
      ((power_step (![![2, 1], ![1, 1]] : Fin 2 → Fin 2 → ℚ))^[0]
        (uniform_dist 2))
      ((power_step (![![2, 1], ![1, 1]] : Fin 2 → Fin 2 → ℚ))^[0 + 1]
        (uniform_dist 2)) := by
    simp only [Function.iterate_zero, Function.iterate_one, id_eq, zero_add]
    intro i
    fin_cases i <;> norm_num [power_step, uniform_dist, Fin.sum_univ_two, abs_lt]
  have hdconv : converged_test (1/5 : ℚ)
      ((derivative_step (uniform_dist 2)
        (![![2, 1], ![1, 1]] : Fin 2 → Fin 2 → ℚ) (fun _ _ => (0 : ℚ)))^[0]
        fun _ => 0)
      ((derivative_step (uniform_dist 2)
        (![![2, 1], ![1, 1]] : Fin 2 → Fin 2 → ℚ) (fun _ _ => (0 : ℚ)))^[0 + 1]
        fun _ => 0) := by
    simp only [Function.iterate_zero, Function.iterate_one, id_eq, zero_add]
    intro i
    fin_cases i <;> norm_num [derivative_step, uniform_dist, Fin.sum_univ_two, abs_lt]
  have h := claim10_break_before_store
    (![![2, 1], ![1, 1]] : Fin 2 → Fin 2 → ℚ) (fun _ _ => (0 : ℚ))
    (uniform_dist 2) 5 (1/5) 0 0 (by norm_num)
    (fun i hi => absurd hi (Nat.not_lt_zero i)) hconv (by norm_num)
    (fun i hi => absurd hi (Nat.not_lt_zero i)) hdconv
  exact ⟨by simpa using h.1, fun i => by simpa using h.2 i⟩

/-! ### The real-valued layer: edge strengths, loss, ranking -/

/-- `sigmoid` (supervisedrw.py lines 15-16): `1 / (1 + np.exp(-x))`. -/
noncomputable def sigmoid (x : ℝ) : ℝ := 1 / (1 + Real.exp (-x))

theorem sigmoid_pos (x : ℝ) : 0 < sigmoid x := by
  unfold sigmoid
  positivity

theorem sigmoid_lt_one (x : ℝ) : sigmoid x < 1 := by
  unfold sigmoid
  rw [div_lt_one (by positivity)]
  have := Real.exp_pos (-x)
  linarith

theorem sigmoid_zero : sigmoid 0 = 1 / 2 := by
  unfold sigmoid
  rw [neg_zero, Real.exp_zero]
  norm_num

/-- The state a trained `SupervisedRWRecommender` carries into its private
methods: edge list, cached feature matrix, and the constructor
configuration (lines 20-27 and 34-50). -/
structure SupervisedRWRecommender (N E M : ℕ) where
  row : Fin E → Fin N
  col : Fin E → Fin N
  features : Fin E → Fin M → ℝ
  max_steps : ℕ
  alpha : ℝ
  lambda_ : ℝ
  epsilon : ℝ
  loss_width : ℝ

/-- `_get_edge_strength` (lines 58-63): `A = sigmoid(features · w)` and
`dA[e,m] = A[e]·(1−A[e])·features[e,m]`. -/
noncomputable def get_edge_strength {N E M : ℕ}
    (R : SupervisedRWRecommender N E M) (w : Fin M → ℝ) :
    (Fin E → ℝ) × (Fin E → Fin M → ℝ) :=
  let A := fun e => sigmoid (∑ m, R.features e m * w m)
  (A, fun e m => A e * (1 - A e) * R.features e m)

/-- C4: the edge strengths are `logistic(features·w)`, strictly inside
`(0, 1)`, and the derivative matrix is `A·(1−A)` times the features. -/
theorem claim4_edge_strength {N E M : ℕ} (R : SupervisedRWRecommender N E M)
    (w : Fin M → ℝ) (e : Fin E) (m : Fin M) :
    0 < (get_edge_strength R w).1 e ∧ (get_edge_strength R w).1 e < 1 ∧
    (get_edge_strength R w).2 e m =
      (get_edge_strength R w).1 e * (1 - (get_edge_strength R w).1 e) *
        R.features e m :=
  ⟨sigmoid_pos _, sigmoid_lt_one _, rfl⟩

/-- The stationary distribution computed by `_loss_function` (lines
138-141) at weights `w` and root `root`. -/
noncomputable def walk_probability {N E M : ℕ}
    (R : SupervisedRWRecommender N E M) (w : Fin M → ℝ) (root : Fin N) :
    Fin N → ℝ :=
  get_stationary_distribution
    (get_transition_probability R.row R.col (get_edge_strength R w).1 root
      R.alpha) R.max_steps R.epsilon

/-- Its derivative with respect to each feature weight (line 142). -/
noncomputable def walk_probability_derivative {N E M : ℕ}
    (R : SupervisedRWRecommender N E M) (w : Fin M → ℝ) (root : Fin N) :
    Fin N → Fin M → ℝ :=
  get_stationary_distribution_derivative
    (get_stationary_distribution
      (get_transition_probability R.row R.col (get_edge_strength R w).1 root
        R.alpha) R.max_steps R.epsilon)
    (get_transition_probability R.row R.col (get_edge_strength R w).1 root
      R.alpha)
    (get_transition_probability_derivative R.row R.col
      (get_edge_strength R w).1 (get_edge_strength R w).2 R.alpha)
    R.max_steps R.epsilon

/-- `_loss_function` (lines 137-152), shaped like the code: the `diff`,
`loss`, `ddiff` and `dpairs` arrays are built from the pair list, the
objective is `np.sum(w**2) + lambda * np.sum(loss)`, and the gradient is
`2*w + einsum('i,im->m', ddiff, dpairs) * lambda`. -/
noncomputable def loss_function {N E M : ℕ} (R : SupervisedRWRecommender N E M)
    (w : Fin M → ℝ) (root : Fin N) (pairs : List (Fin N × Fin N)) :
    ℝ × (Fin M → ℝ) :=
  let P := get_stationary_distribution
    (get_transition_probability R.row R.col (get_edge_strength R w).1 root
      R.alpha) R.max_steps R.epsilon
  let dP := get_stationary_distribution_derivative P
    (get_transition_probability R.row R.col (get_edge_strength R w).1 root
      R.alpha)
    (get_transition_probability_derivative R.row R.col
      (get_edge_strength R w).1 (get_edge_strength R w).2 R.alpha)
    R.max_steps R.epsilon
  let diff := pairs.map fun uv => P uv.1 - P uv.2
  let loss := diff.map fun d => sigmoid (d / R.loss_width)
  let objective := (∑ m, w m ^ 2) + R.lambda_ * loss.sum
  let ddiff := loss.map fun l => l * (1 - l) / R.loss_width
  let dpairs := pairs.map fun uv => fun m => dP uv.1 m - dP uv.2 m
  let gradient := fun m =>
    2 * w m + (List.zipWith (fun a g => a * g m) ddiff dpairs).sum * R.lambda_
  (objective, gradient)

theorem zipWith_map_same {β γ δ ε : Type} (f : γ → δ → ε) (g : β → γ)
    (h : β → δ) (l : List β) :
    List.zipWith f (l.map g) (l.map h) = l.map fun x => f (g x) (h x) := by
  induction l with
  | nil => rfl
  | cons a l ih => simp [ih]

/-- The loss function in closed form: objective and gradient as sums over
the pair list, with `P` and `dP` the stationary distribution and its
derivative at `w`. -/
theorem loss_function_eval {N E M : ℕ} (R : SupervisedRWRecommender N E M)
    (w : Fin M → ℝ) (root : Fin N) (pairs : List (Fin N × Fin N)) :
    loss_function R w root pairs =
      ((∑ m, w m ^ 2) + R.lambda_ * (pairs.map fun uv =>
        sigmoid ((walk_probability R w root uv.1 -
          walk_probability R w root uv.2) / R.loss_width)).sum,
       fun m => 2 * w m + R.lambda_ * (pairs.map fun uv =>
        sigmoid ((walk_probability R w root uv.1 -
          walk_probability R w root uv.2) / R.loss_width) *
        (1 - sigmoid ((walk_probability R w root uv.1 -
          walk_probability R w root uv.2) / R.loss_width)) / R.loss_width *
        (walk_probability_derivative R w root uv.1 m -
          walk_probability_derivative R w root uv.2 m)).sum) := by
  unfold loss_function walk_probability walk_probability_derivative
  dsimp only
  refine Prod.ext ?_ ?_
  · dsimp only
    rw [List.map_map]
    rfl
  · funext m
    dsimp only
    simp only [List.map_map, zipWith_map_same, Function.comp]
    rw [mul_comm _ R.lambda_]

/-! ### A concrete loss-function instance (three nodes, four directed
edges `0↔1`, `0↔2`, one feature, `w = 0`, `alpha = 1/2`, `lambda = 1`,
`max_steps = 1`, `epsilon = 1/1000`, `loss_width = 2`) -/

noncomputable def c3R : SupervisedRWRecommender 3 4 1 :=
  ⟨![0, 0, 1, 2], ![1, 2, 0, 0], ![![4], ![8], ![4], ![4]],
    1, 1/2, 1, 1/1000, 2⟩

theorem c3_A : (get_edge_strength c3R fun _ => 0).1 = fun _ => (1/2 : ℝ) := by
  funext e
  simp [get_edge_strength, sigmoid_zero]

theorem c3_dA :
    (get_edge_strength c3R fun _ => 0).2 = ![![1], ![2], ![1], ![1]] := by
  funext e m
  have hA : (get_edge_strength c3R fun _ => 0).1 e = 1/2 := by rw [c3_A]
  show (get_edge_strength c3R fun _ => 0).1 e *
    (1 - (get_edge_strength c3R fun _ => 0).1 e) * c3R.features e m = _
  rw [hA]
  fin_cases e <;> fin_cases m <;> norm_num [c3R]

theorem c3_Q : get_transition_probability c3R.row c3R.col
    (get_edge_strength c3R fun _ => 0).1 0 c3R.alpha =
    ![![1/2, 1/4, 1/4], ![1, 0, 0], ![1, 0, 0]] := by
  rw [c3_A]
  funext i j
  fin_cases i <;> fin_cases j <;>
    · simp only [get_transition_probability, l1_row_normalize, row_abs_sum,
        scatter_coo, c3R, Fin.sum_univ_four, Fin.sum_univ_three]
      norm_num [Fin.ext_iff, Matrix.cons_val_zero, Matrix.cons_val_one,
        Matrix.head_cons, Matrix.vecHead, Matrix.vecTail, abs_of_nonneg]

theorem c3_Pstep :
    power_step (![![1/2, 1/4, 1/4], ![1, 0, 0], ![1, 0, 0]] :
        Fin 3 → Fin 3 → ℝ) (uniform_dist 3) = ![5/6, 1/12, 1/12] := by
  funext j
  fin_cases j <;> norm_num [power_step, uniform_dist, Fin.sum_univ_three,
    Fin.ext_iff, Matrix.cons_val_zero, Matrix.cons_val_one, Matrix.head_cons,
      Matrix.vecHead, Matrix.vecTail]

theorem c3_P : get_stationary_distribution
    (get_transition_probability c3R.row c3R.col
      (get_edge_strength c3R fun _ => 0).1 0 c3R.alpha)
    c3R.max_steps c3R.epsilon = ![5/6, 1/12, 1/12] := by
  unfold get_stationary_distribution stationary_triple
  rw [c3_Q]
  have hcond : ¬ converged_test c3R.epsilon (uniform_dist 3)
      (power_step (![![1/2, 1/4, 1/4], ![1, 0, 0], ![1, 0, 0]] :
        Fin 3 → Fin 3 → ℝ) (uniform_dist 3)) := by
    intro h
    have h0 := h 0
    rw [c3_Pstep, abs_lt] at h0
    revert h0
    norm_num [uniform_dist, c3R]
  rw [show c3R.max_steps = 0 + 1 from rfl, fp_loop]
  simp only [hcond, if_false]
  rw [fp_loop, c3_Pstep]

theorem c3_Pwalk : walk_probability c3R (fun _ => 0) 0 = ![5/6, 1/12, 1/12] :=
  c3_P

theorem c3_dQ : get_transition_probability_derivative c3R.row c3R.col
    (get_edge_strength c3R fun _ => 0).1 (get_edge_strength c3R fun _ => 0).2
    c3R.alpha =
    fun _ => ![![0, -(1/36), 1/36], ![0, 0, 0], ![0, 0, 0]] := by
  rw [c3_A, c3_dA]
  funext m i j
  fin_cases m
  fin_cases i <;> fin_cases j <;>
    · simp only [get_transition_probability_derivative, row_sum, scatter_coo,
        c3R, Fin.sum_univ_four, Fin.sum_univ_three]
      norm_num [Fin.ext_iff, Matrix.cons_val_zero, Matrix.cons_val_one,
        Matrix.head_cons, Matrix.vecHead, Matrix.vecTail]

theorem c3_dstep : derivative_step (![5/6, 1/12, 1/12] : Fin 3 → ℝ)
    ![![1/2, 1/4, 1/4], ![1, 0, 0], ![1, 0, 0]]
    ![![0, -(1/36), 1/36], ![0, 0, 0], ![0, 0, 0]] (fun _ => 0) =
    ![0, -(5/216), 5/216] := by
  funext j
  fin_cases j <;> norm_num [derivative_step, Fin.sum_univ_three,
    Fin.ext_iff, Matrix.cons_val_zero, Matrix.cons_val_one, Matrix.head_cons,
      Matrix.vecHead, Matrix.vecTail]

theorem c3_dP : walk_probability_derivative c3R (fun _ => 0) 0 =
    fun i _ => (![0, -(5/216), 5/216] : Fin 3 → ℝ) i := by
  funext i m
  unfold walk_probability_derivative
  rw [c3_P, c3_Q, c3_dQ, deriv_sweep_column]
  have hcond : ¬ converged_test c3R.epsilon (fun _ => (0 : ℝ))
      (derivative_step (![5/6, 1/12, 1/12] : Fin 3 → ℝ)
        ![![1/2, 1/4, 1/4], ![1, 0, 0], ![1, 0, 0]]
        ![![0, -(1/36), 1/36], ![0, 0, 0], ![0, 0, 0]] fun _ => 0) := by
    intro h
    have h1 := h 1
    rw [c3_dstep, abs_lt] at h1
    revert h1
    norm_num [c3R]
  rw [show c3R.max_steps = 0 + 1 from rfl, fp_loop]
  simp only [hcond, if_false]
  rw [fp_loop, c3_dstep]

/-- C3 counterexample: at the concrete instance `c3R` with `w = 0`, root
`0` and the single (negative, positive) pair `(1, 2)`, the code's gradient
component is `-5/864`, while the claim's formula
`2w + lambda · Σ logistic'((P[u]−P[v])/width) · (dP[u]−dP[v])` gives
`-5/432`: the code carries an extra `1/loss_width` chain-rule factor that
the claimed formula omits. -/
theorem claim3_counterexample :
    (loss_function c3R (fun _ => 0) 0 [(1, 2)]).2 0 ≠
      2 * (0 : ℝ) + c3R.lambda_ *
        ([((1 : Fin 3), (2 : Fin 3))].map fun uv =>
          sigmoid ((walk_probability c3R (fun _ => 0) 0 uv.1 -
            walk_probability c3R (fun _ => 0) 0 uv.2) / c3R.loss_width) *
          (1 - sigmoid ((walk_probability c3R (fun _ => 0) 0 uv.1 -
            walk_probability c3R (fun _ => 0) 0 uv.2) / c3R.loss_width)) *
          (walk_probability_derivative c3R (fun _ => 0) 0 uv.1 0 -
            walk_probability_derivative c3R (fun _ => 0) 0 uv.2 0)).sum := by
  rw [loss_function_eval]
  dsimp only
  rw [c3_Pwalk, c3_dP]
  simp [sigmoid_zero]
  norm_num [c3R]

/-- C3 amended: the objective is as claimed; the gradient is
`2w + lambda · Σ over pairs of logistic'((P[u]−P[v])/width) · (1/width) ·
(dP[u,:]−dP[v,:])` — the claimed formula with the additional `1/width`
chain-rule factor — where `P` and `dP` are the stationary distribution and
its derivative at `w`. -/
theorem claim3_amended {N E M : ℕ} (R : SupervisedRWRecommender N E M)
    (w : Fin M → ℝ) (root : Fin N) (pairs : List (Fin N × Fin N)) :
    loss_function R w root pairs =
      ((∑ m, w m ^ 2) + R.lambda_ * (pairs.map fun uv =>
        sigmoid ((walk_probability R w root uv.1 -
          walk_probability R w root uv.2) / R.loss_width)).sum,
       fun m => 2 * w m + R.lambda_ * (pairs.map fun uv =>
        sigmoid ((walk_probability R w root uv.1 -
          walk_probability R w root uv.2) / R.loss_width) *
        (1 - sigmoid ((walk_probability R w root uv.1 -
          walk_probability R w root uv.2) / R.loss_width)) / R.loss_width *
        (walk_probability_derivative R w root uv.1 m -
          walk_probability_derivative R w root uv.2 m)).sum) :=
  loss_function_eval R w root pairs

/-! ### Sampling, fitting and ranking -/

/-- The graph data `recommend`/`_select_samples` consult: the node type tag
(`isinstance(n, Repository)`) and the adjacency relation (`graph[u]`,
`graph.neighbors(u)`), over the integer node indexing fixed by `train`. -/
structure RecGraph (N : ℕ) where
  is_repo : Fin N → Bool
  adj : Fin N → Fin N → Bool

/-- `_select_samples` (lines 154-160): `positive` is every neighbor of the
user (`self.graph.neighbors(user)`, with no type filter); `others` is the
set of candidate (Repository) nodes minus the positives; `negative` is
`random.sample(others, min(len(positive), len(others)))`, the randomness
abstracted into the caller-supplied `sample` oracle. -/
def select_samples {N : ℕ} (G : RecGraph N)
    (sample : List (Fin N) → ℕ → List (Fin N)) (user : Fin N) :
    List (Fin N) × List (Fin N) :=
  let positive := (List.finRange N).filter fun v => G.adj user v
  let others := ((List.finRange N).filter fun v => G.is_repo v).filter
    fun v => decide (v ∉ positive)
  (positive, sample others (min positive.length others.length))

/-- A three-node graph: node 0 is the querying user, node 1 a repository,
node 2 another user; node 0 is adjacent to both others. -/
def c7G : RecGraph 3 :=
  ⟨![false, true, false],
   ![![false, true, true], ![true, false, false], ![true, false, false]]⟩

/-- C7 counterexample: node 2 is a neighbor of the root but not of the
candidate type, yet `_select_samples` includes it among the positives —
the positive set is all neighbors, not the type-filtered neighbors the
claim describes. -/
theorem claim7_counterexample :
    (select_samples c7G (fun pop k => pop.take k) 0).1 ≠
      ((List.finRange 3).filter fun v => c7G.adj 0 v && c7G.is_repo v) := by
  decide

/-- Modelled from the spec: `random.sample(population, k)` (Python standard
library, not part of this repository) draws `k` elements without
replacement; on a duplicate-free population of size at least `k` the
result has length `k`, is duplicate-free, and is contained in the
population. -/
def sample_ok {N : ℕ} (sample : List (Fin N) → ℕ → List (Fin N)) : Prop :=
  ∀ pop k, pop.Nodup → k ≤ pop.length →
    (sample pop k).length = k ∧ (sample pop k).Nodup ∧
      ∀ x ∈ sample pop k, x ∈ pop

/-- C7 amended: the positive set is *all* neighbors of the root, with no
candidate-type filter; the negative set is a without-replacement sample,
of size `min |positive| |others|`, of the candidate nodes that are not
positives. -/
theorem claim7_amended {N : ℕ} (G : RecGraph N)
    (sample : List (Fin N) → ℕ → List (Fin N)) (user : Fin N)
    (hs : sample_ok sample) :
    (select_samples G sample user).1 =
      ((List.finRange N).filter fun v => G.adj user v) ∧
    (select_samples G sample user).2.length =
      min (select_samples G sample user).1.length
        (((List.finRange N).filter fun v => G.is_repo v).filter
          (fun v => decide (v ∉ (select_samples G sample user).1))).length ∧
    (select_samples G sample user).2.Nodup ∧
    ∀ x ∈ (select_samples G sample user).2,
      G.is_repo x = true ∧ x ∉ (select_samples G sample user).1 := by
  have hnd : (((List.finRange N).filter fun v => G.adj user v) |>
      (fun positive => ((List.finRange N).filter fun v => G.is_repo v).filter
        fun v => decide (v ∉ positive))).Nodup :=
    ((List.nodup_finRange N).filter _).filter _
  have hk : min ((List.finRange N).filter fun v => G.adj user v).length
      (((List.finRange N).filter fun v => G.is_repo v).filter
        (fun v => decide (v ∉ (List.finRange N).filter
          fun v => G.adj user v))).length ≤
      (((List.finRange N).filter fun v => G.is_repo v).filter
        (fun v => decide (v ∉ (List.finRange N).filter
          fun v => G.adj user v))).length :=
    min_le_right _ _
  obtain ⟨hlen, hnodup, hmem⟩ := hs _ _ hnd hk
  refine ⟨rfl, hlen, hnodup, fun x hx => ?_⟩
  have hx2 := hmem x hx
  have hx3 := List.mem_filter.mp hx2
  exact ⟨(List.mem_filter.mp hx3.1).2, of_decide_eq_true hx3.2⟩

theorem take_sample_ok {N : ℕ} :
    sample_ok fun pop k => (pop.take k : List (Fin N)) := by
  intro pop k hnd hk
  refine ⟨?_, hnd.sublist (List.take_sublist k pop), fun x hx =>
    (List.take_sublist k pop).subset hx⟩
  rw [List.length_take]
  exact min_eq_left hk

theorem claim7_witness :
    sample_ok (fun pop k => (pop.take k : List (Fin 3))) ∧
    ((select_samples c7G (fun pop k => pop.take k) 0).1 =
      ((List.finRange 3).filter fun v => c7G.adj 0 v) ∧
    (select_samples c7G (fun pop k => pop.take k) 0).2.length =
      min (select_samples c7G (fun pop k => pop.take k) 0).1.length
        (((List.finRange 3).filter fun v => c7G.is_repo v).filter
          (fun v => decide (v ∉ (select_samples c7G
            (fun pop k => pop.take k) 0).1))).length ∧
    (select_samples c7G (fun pop k => pop.take k) 0).2.Nodup ∧
    ∀ x ∈ (select_samples c7G (fun pop k => pop.take k) 0).2,
      c7G.is_repo x = true ∧
        x ∉ (select_samples c7G (fun pop k => pop.take k) 0).1) :=
  ⟨take_sample_ok, claim7_amended c7G _ 0 take_sample_ok⟩

/-- Modelled from the spec: `scipy.optimize.fmin_l_bfgs_b` (SciPy, external
to this repository), "a quasi-Newton bounded-memory gradient method" whose
own termination is accepted as final.  Modelled as one exact gradient step
of size 1/2, which already minimizes the pure quadratic objectives that
arise in the empty-pair boundary case. -/
noncomputable def fmin_l_bfgs_b_model {M : ℕ}
    (f : (Fin M → ℝ) → ℝ × (Fin M → ℝ)) (w0 : Fin M → ℝ) : Fin M → ℝ :=
  fun m => w0 m - 1/2 * (f w0).2 m

/-- The fitting step of `_get_rank` (lines 162-168): sample positives and
negatives, build the `(negative, positive)` cross-product pair list, and
hand the loss function to the optimizer (`fmin_l_bfgs_b`, abstracted as
`opt`) from the random start `w0`. -/
noncomputable def fit_weights {N E M : ℕ} (R : SupervisedRWRecommender N E M)
    (G : RecGraph N) (sample : List (Fin N) → ℕ → List (Fin N))
    (opt : ((Fin M → ℝ) → ℝ × (Fin M → ℝ)) → (Fin M → ℝ) → (Fin M → ℝ))
    (w0 : Fin M → ℝ) (user : Fin N) : Fin M → ℝ :=
  let ps := select_samples G sample user
  let pairs := ps.2.flatMap fun u => ps.1.map fun v => (u, v)
  opt (fun w => loss_function R w user pairs) w0

/-- The loss function on an empty pair list: `‖w‖²` with gradient `2w`. -/
theorem loss_function_nil {N E M : ℕ} (R : SupervisedRWRecommender N E M)
    (w : Fin M → ℝ) (root : Fin N) :
    loss_function R w root [] = (∑ m, w m ^ 2, fun m => 2 * w m) := by
  rw [loss_function_eval]
  simp

/-- An isolated single-node graph (the querying user with no neighbors). -/
def c9G : RecGraph 1 := ⟨![false], ![![false]]⟩

/-- A recommender over that graph: no edges, one feature. -/
noncomputable def c9R : SupervisedRWRecommender 1 0 1 :=
  ⟨fun e => e.elim0, fun e => e.elim0, fun e => e.elim0, 1, 1/2, 1, 1/100, 1⟩

/-- C9 counterexample: for a root with no neighbors the positive sample set
is empty, yet `fit` neither raises (every branch is total) nor returns the
initial weights: it runs the optimizer on the degenerate objective `‖w‖²`,
and the modelled gradient-based optimizer moves `w0 = 1` to `0 ≠ w0`. -/
theorem claim9_counterexample :
    (select_samples c9G (fun pop k => pop.take k) 0).1 = [] ∧
    fit_weights c9R c9G (fun pop k => pop.take k) fmin_l_bfgs_b_model
      (fun _ => 1) 0 = (fun _ => 0) ∧
    (fun _ : Fin 1 => (1 : ℝ)) ≠ fun _ => 0 := by
  have hsel : select_samples c9G (fun pop k => pop.take k) 0 = ([], []) := by
    decide
  refine ⟨by decide, ?_, fun h => by simpa using congrFun h 0⟩
  unfold fit_weights
  rw [hsel]
  show fmin_l_bfgs_b_model
    (fun w => loss_function c9R w 0 ([].flatMap fun u =>
      [].map fun v => (u, v))) (fun _ => 1) = fun _ => 0
  funext m
  unfold fmin_l_bfgs_b_model
  rw [show ([].flatMap fun u => [].map fun v =>
    ((u : Fin 1), (v : Fin 1))) = [] from rfl]
  simp only [loss_function_nil]
  norm_num

/-- C9 amended: with an empty positive set `fit` follows the ordinary code
path — no configuration error is raised and the initial weights are not
simply returned: the pair list is empty, the objective degenerates to
`‖w‖²` with gradient `2w`, and the result is exactly the optimizer's
output on that quadratic from the random start. -/
theorem claim9_amended {N E M : ℕ} (R : SupervisedRWRecommender N E M)
    (G : RecGraph N) (sample : List (Fin N) → ℕ → List (Fin N))
    (opt : ((Fin M → ℝ) → ℝ × (Fin M → ℝ)) → (Fin M → ℝ) → (Fin M → ℝ))
    (w0 : Fin M → ℝ) (user : Fin N)
    (h : ∀ v, G.adj user v = false) :
    (select_samples G sample user).1 = [] ∧
    (∀ w, loss_function R w user [] = (∑ m, w m ^ 2, fun m => 2 * w m)) ∧
    fit_weights R G sample opt w0 user =
      opt (fun w => loss_function R w user []) w0 := by
  have hpos : (select_samples G sample user).1 = [] := by
    unfold select_samples
    simp [h]
  refine ⟨hpos, fun w => loss_function_nil R w user, ?_⟩
  unfold fit_weights
  dsimp only
  rw [show (select_samples G sample user).2.flatMap
      (fun u => (select_samples G sample user).1.map fun v => (u, v)) =
      [] from by
    rw [hpos]
    simp]

theorem claim9_witness :
    (∀ v, c9G.adj 0 v = false) ∧
    ((select_samples c9G (fun pop k => pop.take k) 0).1 = [] ∧
    (∀ w, loss_function c9R w 0 [] = (∑ m, w m ^ 2, fun m => 2 * w m)) ∧
    fit_weights c9R c9G (fun pop k => pop.take k) fmin_l_bfgs_b_model
        (fun _ => 1) 0 =
      fmin_l_bfgs_b_model (fun w => loss_function c9R w 0 []) fun _ => 1) :=
  ⟨by decide, claim9_amended c9R c9G _ fmin_l_bfgs_b_model (fun _ => 1) 0
    (by decide)⟩

/-! ### The recommendation output -/

/-- Nonnegative strengths and `alpha` in `[0, 1]` make every transition
entry nonnegative. -/
theorem transition_nonneg {N E : ℕ} (row col : Fin E → Fin N) (A : Fin E → α)
    (root : Fin N) (alpha : α) (hA : ∀ e, 0 ≤ A e) (h0 : 0 ≤ alpha)
    (h1 : alpha ≤ 1) (i j : Fin N) :
    0 ≤ get_transition_probability row col A root alpha i j := by
  unfold get_transition_probability l1_row_normalize
  have hF := scatter_coo_nonneg row col A hA i j
  have habs : 0 ≤ row_abs_sum (scatter_coo row col A) i :=
    Finset.sum_nonneg fun j2 _ => abs_nonneg _
  refine add_nonneg (mul_nonneg ?_ (by linarith)) ?_
  · split
    · exact hF
    · exact div_nonneg hF habs
  · split
    · exact h0
    · exact le_rfl

/-- With `0 < alpha ≤ 1`, every transition row has positive sum. -/
theorem transition_row_sum_pos {N E : ℕ} (row col : Fin E → Fin N)
    (A : Fin E → α) (root : Fin N) (alpha : α) (hA : ∀ e, 0 ≤ A e)
    (h0 : 0 < alpha) (i : Fin N) :
    0 < ∑ j, get_transition_probability row col A root alpha i j := by
  rw [transition_row_sums row col A root alpha hA i]
  split
  · exact h0
  · exact zero_lt_one

/-- `_get_rank` (lines 162-172): fit the weights, rebuild the transition
matrix at the learned weights with the user as root, and return its
stationary distribution. -/
noncomputable def get_rank {N E M : ℕ} (R : SupervisedRWRecommender N E M)
    (G : RecGraph N) (sample : List (Fin N) → ℕ → List (Fin N))
    (opt : ((Fin M → ℝ) → ℝ × (Fin M → ℝ)) → (Fin M → ℝ) → (Fin M → ℝ))
    (w0 : Fin M → ℝ) (user : Fin N) : Fin N → ℝ :=
  let w := fit_weights R G sample opt w0 user
  get_stationary_distribution
    (get_transition_probability R.row R.col (get_edge_strength R w).1 user
      R.alpha) R.max_steps R.epsilon

/-- Every rank score is a stationary probability, hence lies in `[0, 1]`
whenever `0 < alpha ≤ 1`. -/
theorem get_rank_mem_unit {N E M : ℕ} (R : SupervisedRWRecommender N E M)
    (G : RecGraph N) (sample : List (Fin N) → ℕ → List (Fin N))
    (opt : ((Fin M → ℝ) → ℝ × (Fin M → ℝ)) → (Fin M → ℝ) → (Fin M → ℝ))
    (w0 : Fin M → ℝ) (user : Fin N) (h0 : 0 < R.alpha) (h1 : R.alpha ≤ 1)
    (k : Fin N) :
    0 ≤ get_rank R G sample opt w0 user k ∧
      get_rank R G sample opt w0 user k ≤ 1 := by
  unfold get_rank
  have hA : ∀ e, 0 ≤ (get_edge_strength R
      (fit_weights R G sample opt w0 user)).1 e :=
    fun e => (sigmoid_pos _).le
  have hQ0 : ∀ i j, 0 ≤ get_transition_probability R.row R.col
      (get_edge_strength R (fit_weights R G sample opt w0 user)).1 user
      R.alpha i j :=
    fun i j => transition_nonneg _ _ _ _ _ hA h0.le h1 i j
  have hrow : ∀ i, 0 < ∑ j, get_transition_probability R.row R.col
      (get_edge_strength R (fit_weights R G sample opt w0 user)).1 user
      R.alpha i j :=
    fun i => transition_row_sum_pos _ _ _ _ _ hA h0 i
  have hinv := stationary_invariant _ R.max_steps R.epsilon (Fin.pos user)
    hQ0 hrow
  refine ⟨hinv.1 k, ?_⟩
  rw [← hinv.2]
  exact Finset.single_le_sum (fun j _ => hinv.1 j) (Finset.mem_univ k)

/-- The comparison the ranking output is sorted by: strictly higher score
first, equal scores in ascending node-index order. -/
def rank_le {N : ℕ} (a b : Fin N × α) : Bool :=
  decide (b.2 < a.2 ∨ (a.2 = b.2 ∧ a.1 ≤ b.1))

theorem rank_le_trans {N : ℕ} (a b c : Fin N × α) :
    rank_le a b = true → rank_le b c = true → rank_le a c = true := by
  unfold rank_le
  simp only [decide_eq_true_iff]
  rintro (hab | ⟨hab, hab2⟩) (hbc | ⟨hbc, hbc2⟩)
  · exact Or.inl (hbc.trans hab)
  · exact Or.inl (hbc ▸ hab)
  · exact Or.inl (hab ▸ hbc)
  · exact Or.inr ⟨hab.trans hbc, hab2.trans hbc2⟩

theorem rank_le_total {N : ℕ} (a b : Fin N × α) :
    (rank_le a b || rank_le b a) = true := by
  unfold rank_le
  simp only [Bool.or_eq_true, decide_eq_true_iff]
  rcases lt_trichotomy a.2 b.2 with h | h | h
  · exact Or.inr (Or.inl h)
  · rcases le_total a.1 b.1 with h2 | h2
    · exact Or.inl (Or.inr ⟨h, h2⟩)
    · exact Or.inr (Or.inr ⟨h.symm, h2⟩)
  · exact Or.inl (Or.inl h)

/-- Modelled from the spec: `recommend_by_rank`
(`ghanalyzer.utils.recommendation`, not under `src/`): sort the candidate
(node, score) items by descending score, ties broken by original node
index (stable sort), and return the top `n`. -/
def recommend_by_rank {N : ℕ} (rank : List (Fin N × α)) (n : ℕ) :
    List (Fin N × α) :=
  (rank.mergeSort rank_le).take n

/-- `recommend` (lines 52-56): rank every node with `_get_rank`, keep the
Repository-typed nodes not already adjacent to the user, and hand the
(node, score) items to `recommend_by_rank`. -/
noncomputable def recommend {N E M : ℕ} (R : SupervisedRWRecommender N E M)
    (G : RecGraph N) (sample : List (Fin N) → ℕ → List (Fin N))
    (opt : ((Fin M → ℝ) → ℝ × (Fin M → ℝ)) → (Fin M → ℝ) → (Fin M → ℝ))
    (w0 : Fin M → ℝ) (user : Fin N) (n : ℕ) : List (Fin N × ℝ) :=
  recommend_by_rank
    (((List.finRange N).filter fun k => G.is_repo k && !(G.adj user k)).map
      fun k => (k, get_rank R G sample opt w0 user k)) n

/-- C8: `recommend(user, n)` returns at most `n` (node, score) pairs; every
returned node is of the candidate type and not adjacent to the user; every
score lies in `[0, 1]`; scores are descending, and equal scores appear in
ascending original-node-index order. -/
theorem claim8_recommend {N E M : ℕ} (R : SupervisedRWRecommender N E M)
    (G : RecGraph N) (sample : List (Fin N) → ℕ → List (Fin N))
    (opt : ((Fin M → ℝ) → ℝ × (Fin M → ℝ)) → (Fin M → ℝ) → (Fin M → ℝ))
    (w0 : Fin M → ℝ) (user : Fin N) (n : ℕ)
    (h0 : 0 < R.alpha) (h1 : R.alpha ≤ 1) :
    (recommend R G sample opt w0 user n).length ≤ n ∧
    (∀ p ∈ recommend R G sample opt w0 user n,
      G.is_repo p.1 = true ∧ G.adj user p.1 = false ∧ 0 ≤ p.2 ∧ p.2 ≤ 1) ∧
    (recommend R G sample opt w0 user n).Pairwise
      fun p q => q.2 ≤ p.2 ∧ (p.2 = q.2 → p.1 ≤ q.1) := by
  unfold recommend recommend_by_rank
  refine ⟨?_, ?_, ?_⟩
  · rw [List.length_take]
    exact min_le_left _ _
  · intro p hp
    have hp1 : p ∈ List.mergeSort
        (((List.finRange N).filter fun k => G.is_repo k && !(G.adj user k)).map
          fun k => (k, get_rank R G sample opt w0 user k)) rank_le :=
      (List.take_sublist n _).subset hp
    have hp2 := List.mem_mergeSort.mp hp1
    obtain ⟨k, hk, rfl⟩ := List.mem_map.mp hp2
    have hk2 := (List.mem_filter.mp hk).2
    rw [Bool.and_eq_true, Bool.not_eq_true'] at hk2
    have hb := get_rank_mem_unit R G sample opt w0 user h0 h1 k
    exact ⟨hk2.1, hk2.2, hb.1, hb.2⟩
  · have hs := List.sorted_mergeSort
      (fun a b c => rank_le_trans a b c) (fun a b => rank_le_total a b)
      (((List.finRange N).filter fun k => G.is_repo k && !(G.adj user k)).map
        fun k => (k, get_rank R G sample opt w0 user k))
    have ht := List.Pairwise.sublist (List.take_sublist n _) hs
    refine ht.imp fun hab => ?_
    have hab2 := of_decide_eq_true hab
    rcases hab2 with h | ⟨heq, hle⟩
    · exact ⟨h.le, fun he => absurd (he ▸ h) (lt_irrefl _)⟩
    · exact ⟨heq.symm.le, fun _ => hle⟩

/-- A concrete recommendation instance: three nodes (the user `0` and two
repositories), edges `0↔1` and `1↔2`, all features zero, `alpha = 1/2`;
the identity optimizer keeps `w = 0`. -/
noncomputable def c8R : SupervisedRWRecommender 3 4 1 :=
  ⟨![0, 1, 1, 2], ![1, 0, 2, 1], ![![0], ![0], ![0], ![0]],
    1, 1/2, 1, 1/1000, 1⟩

def c8G : RecGraph 3 :=
  ⟨![false, true, true],
   ![![false, true, false], ![true, false, true], ![false, true, false]]⟩

theorem claim8_witness :
    0 < c8R.alpha ∧ c8R.alpha ≤ 1 ∧
    ((recommend c8R c8G (fun pop k => pop.take k) (fun _ w0 => w0)
        (fun _ => 0) 0 2).length ≤ 2 ∧
    (∀ p ∈ recommend c8R c8G (fun pop k => pop.take k) (fun _ w0 => w0)
        (fun _ => 0) 0 2,
      c8G.is_repo p.1 = true ∧ c8G.adj 0 p.1 = false ∧ 0 ≤ p.2 ∧ p.2 ≤ 1) ∧
    (recommend c8R c8G (fun pop k => pop.take k) (fun _ w0 => w0)
        (fun _ => 0) 0 2).Pairwise
      fun p q => q.2 ≤ p.2 ∧ (p.2 = q.2 → p.1 ≤ q.1)) :=
  ⟨by norm_num [c8R], by norm_num [c8R],
    claim8_recommend c8R c8G _ _ _ 0 2 (by norm_num [c8R])
      (by norm_num [c8R])⟩

end SRW
